import Mathlib

/-!
Verification of `boa/src/builtins/uri/mod.rs` (the global `encodeURI` /
`decodeURI` implementation).

The Rust module delegates to the `percent_encoding` crate:
* `utf8_percent_encode(s, ENCODE_FRAGMENT)` percent-escapes every byte of the
  UTF-8 representation of `s` that is non-ASCII or belongs to the fragment
  set `CONTROLS ∪ { 0x20, 0x22 ("), 0x3C (<), 0x3E (>), 0x60 (backtick) }`,
  where `CONTROLS` is the C0 controls `0x00-0x1F` together with DEL `0x7F`;
  escaped bytes are rendered `%XX` with uppercase hexadecimal digits.
* `percent_decode(bytes)` replaces each `%hh` (hex digits of either case)
  by the byte `hh`; a `%` not followed by two hex digits is passed through
  literally (the two following bytes are then examined normally).
* `.decode_utf8().unwrap()` validates the decoded bytes as UTF-8 and panics
  on failure.  Panics are modelled as `none` below.

Strings are modelled as `List Char` (a Lean `Char` is a Unicode scalar
value, exactly like a Rust `char`); bytes as `Nat` values below 256.
-/

namespace Boa

/-- UTF-8 encoding of one Unicode scalar value (Rust `char::encode_utf8`),
as a list of bytes. -/
def encode_utf8 (c : Char) : List Nat :=
  if c.toNat < 0x80 then [c.toNat]
  else if c.toNat < 0x800 then
    [0xC0 + c.toNat / 0x40, 0x80 + c.toNat % 0x40]
  else if c.toNat < 0x10000 then
    [0xE0 + c.toNat / 0x1000, 0x80 + (c.toNat / 0x40) % 0x40, 0x80 + c.toNat % 0x40]
  else
    [0xF0 + c.toNat / 0x40000, 0x80 + (c.toNat / 0x1000) % 0x40,
     0x80 + (c.toNat / 0x40) % 0x40, 0x80 + c.toNat % 0x40]

/-- The UTF-8 bytes of a string (Rust `str::as_bytes`). -/
def as_bytes (s : List Char) : List Nat :=
  (s.map encode_utf8).flatten

/-- The C0 control set of the `percent_encoding` crate:
`0x00`-`0x1F` and `0x7F` (DEL). -/
def CONTROLS (b : Nat) : Bool :=
  decide (b ≤ 0x1F) || decide (b = 0x7F)

/-- Constant `ENCODE_FRAGMENT` from `boa/src/builtins/uri/mod.rs`:
`CONTROLS.add(b' ').add(b'"').add(b'<').add(b'>').add(0x60)`
(the WHATWG fragment percent-encode set). -/
def ENCODE_FRAGMENT (b : Nat) : Bool :=
  CONTROLS b || decide (b = 0x20) || decide (b = 0x22) || decide (b = 0x3C)
    || decide (b = 0x3E) || decide (b = 0x60)

/-- Membership test `AsciiSet::should_percent_encode`: a byte is escaped iff it is
non-ASCII or belongs to the set. -/
def should_percent_encode (b : Nat) : Bool :=
  decide (0x80 ≤ b) || ENCODE_FRAGMENT b

/-- Uppercase hexadecimal digit for a value below 16
(the crate's escape table uses uppercase). -/
def UPPER_HEX (n : Nat) : Char :=
  Char.ofNat (if n < 10 then 48 + n else 55 + n)

/-- The three characters `%XX` (the crate's `percent_encode_byte`). -/
def percent_encode_byte (b : Nat) : List Char :=
  [Char.ofNat 0x25, UPPER_HEX (b / 16), UPPER_HEX (b % 16)]

/-- The crate's `percent_encode(bytes, ENCODE_FRAGMENT)`: escape the bytes
that need escaping, pass the rest through literally. -/
def percent_encode (bs : List Nat) : List Char :=
  (bs.map
    (fun b => if should_percent_encode b then percent_encode_byte b
              else [Char.ofNat b])).flatten

/-- Encoding entry point `utf8_percent_encode(s, ENCODE_FRAGMENT).to_string()`:
`percent_encode` applied to the UTF-8 bytes of `s`. -/
def utf8_percent_encode (s : List Char) : List Char :=
  percent_encode (as_bytes s)

/-- Hexadecimal digit value, `char::to_digit(16)` applied to a byte viewed as a character:
hex digits of either case. -/
def from_hex (b : Nat) : Option Nat :=
  if 48 ≤ b ∧ b ≤ 57 then some (b - 48)
  else if 65 ≤ b ∧ b ≤ 70 then some (b - 55)
  else if 97 ≤ b ∧ b ≤ 102 then some (b - 87)
  else none

/-- The crate's `after_percent_sign`: peek at the next two bytes without
consuming them (the iterator is cloned); succeed only if both are hex
digits, yielding the byte they denote. -/
def after_percent_sign : List Nat → Option Nat
  | b1 :: b2 :: _ =>
    match from_hex b1, from_hex b2 with
    | some h, some l => some (h * 16 + l)
    | _, _ => none
  | _ => none

/-- The crate's `percent_decode` iterator: each `%hh` with two valid hex
digits becomes the byte `hh`; a `%` not followed by two valid hex digits
is emitted literally and only the `%` itself is consumed. -/
def percent_decode : List Nat → List Nat
  | [] => []
  | b :: rest =>
    if b = 0x25 then
      match after_percent_sign rest with
      | some v =>
        match rest with
        | _ :: _ :: rest2 => v :: percent_decode rest2
        | _ => []  -- unreachable: after_percent_sign succeeds only with two bytes present
      | none => b :: percent_decode rest
    else b :: percent_decode rest

/-- A UTF-8 continuation byte, `0x80`-`0xBF`. -/
def isCont (b : Nat) : Bool :=
  decide (0x80 ≤ b) && decide (b ≤ 0xBF)

/-- Strict UTF-8 validation and decoding (Rust `str::from_utf8` followed by
iterating the characters): rejects overlong forms, surrogates, values above
`0x10FFFF`, lone continuation bytes and truncated sequences.  Returns the
decoded scalar values, or `none` on invalid input.

Leads `0x80`-`0xC1` are continuation bytes or overlong two-byte leads;
`0xC2`-`0xDF`, `0xE0`-`0xEF` and `0xF0`-`0xF4` start sequences of width
2, 3 and 4; `0xF5`-`0xFF` are invalid.  The first three arms below are the
truncations of the general arm to inputs shorter than the needed width
(the source compares the width against the remaining length). -/
def decode_utf8 : List Nat → Option (List Char)
  | [] => some []
  | [b] =>
    if b < 0x80 then some [Char.ofNat b]
    else none
  | [b, b1] =>
    if b < 0x80 then (decode_utf8 [b1]).map (fun cs => Char.ofNat b :: cs)
    else if b < 0xC2 then none
    else if b < 0xE0 then
      if isCont b1 then some [Char.ofNat ((b - 0xC0) * 0x40 + (b1 - 0x80))]
      else none
    else none
  | [b, b1, b2] =>
    if b < 0x80 then (decode_utf8 [b1, b2]).map (fun cs => Char.ofNat b :: cs)
    else if b < 0xC2 then none
    else if b < 0xE0 then
      if isCont b1 then
        (decode_utf8 [b2]).map
          (fun cs => Char.ofNat ((b - 0xC0) * 0x40 + (b1 - 0x80)) :: cs)
      else none
    else if b < 0xF0 then
      if (if b = 0xE0 then isCont b1 && decide (0xA0 ≤ b1)
          else if b = 0xED then isCont b1 && decide (b1 ≤ 0x9F)
          else isCont b1) && isCont b2 then
        some [Char.ofNat ((b - 0xE0) * 0x1000 + (b1 - 0x80) * 0x40 + (b2 - 0x80))]
      else none
    else none
  | b :: b1 :: b2 :: b3 :: rest =>
    if b < 0x80 then
      (decode_utf8 (b1 :: b2 :: b3 :: rest)).map (fun cs => Char.ofNat b :: cs)
    else if b < 0xC2 then none
    else if b < 0xE0 then
      if isCont b1 then
        (decode_utf8 (b2 :: b3 :: rest)).map
          (fun cs => Char.ofNat ((b - 0xC0) * 0x40 + (b1 - 0x80)) :: cs)
      else none
    else if b < 0xF0 then
      if (if b = 0xE0 then isCont b1 && decide (0xA0 ≤ b1)
          else if b = 0xED then isCont b1 && decide (b1 ≤ 0x9F)
          else isCont b1) && isCont b2 then
        (decode_utf8 (b3 :: rest)).map
          (fun cs =>
            Char.ofNat ((b - 0xE0) * 0x1000 + (b1 - 0x80) * 0x40 + (b2 - 0x80)) :: cs)
      else none
    else if b < 0xF5 then
      if (if b = 0xF0 then isCont b1 && decide (0x90 ≤ b1)
          else if b = 0xF4 then isCont b1 && decide (b1 ≤ 0x8F)
          else isCont b1) && isCont b2 && isCont b3 then
        (decode_utf8 rest).map
          (fun cs =>
            Char.ofNat ((b - 0xF0) * 0x40000 + (b1 - 0x80) * 0x1000
              + (b2 - 0x80) * 0x40 + (b3 - 0x80)) :: cs)
      else none
    else none

/-- The decode callback of `decode_uri`:
`percent_decode(s.as_bytes()).decode_utf8().unwrap()`.
`none` models the panic of the `unwrap`. -/
def decode_str (s : List Char) : Option (List Char) :=
  decode_utf8 (percent_decode (as_bytes s))

/-- The JavaScript values `handle_uri` discriminates on: `Value::String`
against every other variant (the Rust `match` sends all non-string variants
to the same catch-all arm, so the exact non-string payloads are irrelevant
and a representative selection of boa's `Value` variants suffices). -/
inductive Value where
  | undefined : Value
  | nullv : Value
  | boolean : Bool → Value
  | num : Int → Value
  | str : List Char → Value
deriving DecidableEq, Repr

/-- Dispatcher `Uri::handle_uri`, i.e. `args.get(0).map(|arg| match arg with arms).unwrap()`.
The outer `Result` is always `Ok`, so it is omitted; `none` models the
panic of the `unwrap` when no argument was supplied, and a panicking
callback (`cb s = none`) propagates. -/
def handle_uri (args : List Value) (cb : List Char → Option Value) : Option Value :=
  match args.get? 0 with
  | none => none
  | some (Value.str s) => if s.isEmpty then some (Value.str []) else cb s
  | some _ => some Value.undefined

/-- Operation `Uri::encode_uri` applied to an argument list. -/
def encode_uri (args : List Value) : Option Value :=
  handle_uri args (fun s => some (Value.str (utf8_percent_encode s)))

/-- Operation `Uri::decode_uri` applied to an argument list. -/
def decode_uri (args : List Value) : Option Value :=
  handle_uri args (fun s => (decode_str s).map Value.str)

/-- Modelled from the spec: the fixed unescaped-character set the spec
claims for the encoder — uppercase/lowercase letters, digits, the marks
`- _ . ! ~ * ' ( )` (code points 45 95 46 33 126 42 39 40 41) and the
URI-reserved punctuation `; , / ? : @ & = + $ #`
(code points 59 44 47 63 58 64 38 61 43 36 35). -/
def uriUnescaped (c : Char) : Bool :=
  decide (65 ≤ c.toNat ∧ c.toNat ≤ 90) || decide (97 ≤ c.toNat ∧ c.toNat ≤ 122)
    || decide (48 ≤ c.toNat ∧ c.toNat ≤ 57)
    || decide (c.toNat = 45) || decide (c.toNat = 95) || decide (c.toNat = 46)
    || decide (c.toNat = 33) || decide (c.toNat = 126) || decide (c.toNat = 42)
    || decide (c.toNat = 39) || decide (c.toNat = 40) || decide (c.toNat = 41)
    || decide (c.toNat = 59) || decide (c.toNat = 44) || decide (c.toNat = 47)
    || decide (c.toNat = 63) || decide (c.toNat = 58) || decide (c.toNat = 64)
    || decide (c.toNat = 38) || decide (c.toNat = 61) || decide (c.toNat = 43)
    || decide (c.toNat = 36) || decide (c.toNat = 35)

/-- Modelled from the amended claim C1, code-point-wise: an ASCII code
point outside the fragment escape set passes through unchanged; every
other code point (fragment-set ASCII and all non-ASCII) is replaced by
the percent-escapes of its UTF-8 bytes, in byte order. -/
def fragment_spec_encode_char (c : Char) : List Char :=
  if c.toNat < 0x80 && !ENCODE_FRAGMENT c.toNat then [c]
  else (encode_utf8 c).flatMap percent_encode_byte

/-- Modelled from the amended claim C1: the whole-string encoder obtained
by applying `fragment_spec_encode_char` to each code point. -/
def fragment_spec_encode (s : List Char) : List Char :=
  (s.map fragment_spec_encode_char).flatten

/-! ## Helper lemmas -/

theorem toNat_ofNat_valid (n : Nat) (h : n < 0xD800) : (Char.ofNat n).toNat = n := by
  rw [Char.ofNat, dif_pos (Or.inl h)]
  rfl

theorem char_toNat_lt (c : Char) : c.toNat < 0x110000 := by
  rcases c.valid with h | h
  · exact Nat.lt_trans h (by decide)
  · exact h.2

theorem char_toNat_not_surrogate (c : Char) : c.toNat < 0xD800 ∨ 0xDFFF < c.toNat := by
  rcases c.valid with h | h
  · exact Or.inl h
  · exact Or.inr h.1

theorem char_eq_of_toNat_eq {c d : Char} (h : c.toNat = d.toNat) : c = d := by
  have h1 := Char.ofNat_toNat c
  rw [h, Char.ofNat_toNat] at h1
  exact h1.symm

theorem encode_utf8_ascii (c : Char) (h : c.toNat < 0x80) :
    encode_utf8 c = [c.toNat] := by
  unfold encode_utf8
  rw [if_pos h]

theorem encode_utf8_mem_lt_256 (c : Char) (b : Nat) (hb : b ∈ encode_utf8 c) :
    b < 256 := by
  have hv := char_toNat_lt c
  unfold encode_utf8 at hb
  split at hb
  · simp only [List.mem_singleton] at hb; omega
  · split at hb
    · simp only [List.mem_cons, List.mem_singleton, List.not_mem_nil, or_false] at hb
      rcases hb with h | h <;> omega
    · split at hb
      · simp only [List.mem_cons, List.mem_singleton, List.not_mem_nil, or_false] at hb
        rcases hb with h | h | h <;> omega
      · simp only [List.mem_cons, List.mem_singleton, List.not_mem_nil, or_false] at hb
        rcases hb with h | h | h | h <;> omega

theorem encode_utf8_mem_high (c : Char) (hc : 0x80 ≤ c.toNat) (b : Nat)
    (hb : b ∈ encode_utf8 c) : 0x80 ≤ b := by
  unfold encode_utf8 at hb
  rw [if_neg (by omega)] at hb
  split at hb
  · simp only [List.mem_cons, List.mem_singleton, List.not_mem_nil, or_false] at hb
    have : 2 ≤ c.toNat / 0x40 := by omega
    rcases hb with h | h <;> omega
  · split at hb
    · simp only [List.mem_cons, List.mem_singleton, List.not_mem_nil, or_false] at hb
      rcases hb with h | h | h <;> omega
    · simp only [List.mem_cons, List.mem_singleton, List.not_mem_nil, or_false] at hb
      rcases hb with h | h | h | h <;> omega

theorem as_bytes_nil : as_bytes [] = [] := rfl

theorem as_bytes_cons (c : Char) (s : List Char) :
    as_bytes (c :: s) = encode_utf8 c ++ as_bytes s := by
  simp [as_bytes]

theorem as_bytes_append (s t : List Char) :
    as_bytes (s ++ t) = as_bytes s ++ as_bytes t := by
  simp [as_bytes]

theorem as_bytes_mem_lt_256 (s : List Char) (b : Nat) (hb : b ∈ as_bytes s) :
    b < 256 := by
  simp only [as_bytes, List.mem_flatten, List.mem_map] at hb
  obtain ⟨l, ⟨c, _, rfl⟩, hbl⟩ := hb
  exact encode_utf8_mem_lt_256 c b hbl

theorem mem_of_percent_mem_as_bytes (s : List Char) (h : 37 ∈ as_bytes s) :
    Char.ofNat 37 ∈ s := by
  simp only [as_bytes, List.mem_flatten, List.mem_map] at h
  obtain ⟨l, ⟨c, hc, rfl⟩, hbl⟩ := h
  by_cases hca : c.toNat < 0x80
  · rw [encode_utf8_ascii c hca, List.mem_singleton] at hbl
    have : c = Char.ofNat 37 := by
      apply char_eq_of_toNat_eq
      rw [toNat_ofNat_valid 37 (by decide)]
      omega
    rwa [this] at hc
  · have := encode_utf8_mem_high c (by omega) 37 hbl
    omega

theorem UPPER_HEX_toNat (n : Nat) (h : n < 16) :
    (UPPER_HEX n).toNat = if n < 10 then 48 + n else 55 + n := by
  unfold UPPER_HEX
  exact toNat_ofNat_valid _ (by split <;> omega)

theorem UPPER_HEX_toNat_lt (n : Nat) (h : n < 16) : (UPPER_HEX n).toNat < 0x80 := by
  rw [UPPER_HEX_toNat n h]
  split <;> omega

theorem from_hex_UPPER_HEX (n : Nat) (h : n < 16) :
    from_hex ((UPPER_HEX n).toNat) = some n := by
  rw [UPPER_HEX_toNat n h]
  unfold from_hex
  by_cases h10 : n < 10
  · rw [if_pos h10, if_pos (by omega)]
    congr 1
    omega
  · rw [if_neg h10, if_neg (by omega), if_pos (by omega)]
    congr 1
    omega

theorem percent_decode_cons_ne (b : Nat) (bs : List Nat) (hb : b ≠ 37) :
    percent_decode (b :: bs) = b :: percent_decode bs := by
  conv_lhs => unfold percent_decode
  rw [if_neg hb]

theorem percent_decode_escape (b1 b2 h l : Nat) (bs : List Nat)
    (h1 : from_hex b1 = some h) (h2 : from_hex b2 = some l) :
    percent_decode (37 :: b1 :: b2 :: bs) = (h * 16 + l) :: percent_decode bs := by
  conv_lhs => unfold percent_decode
  rw [if_pos rfl]
  simp [after_percent_sign, h1, h2]

theorem percent_decode_no37 (bs : List Nat) (h : 37 ∉ bs) : percent_decode bs = bs := by
  induction bs with
  | nil => rfl
  | cons b rest ih =>
    simp only [List.mem_cons, not_or] at h
    rw [percent_decode_cons_ne b rest (fun hEq => h.1 hEq.symm), ih h.2]

theorem decode_utf8_ascii (b : Nat) (bs : List Nat) (hb : b < 0x80) :
    decode_utf8 (b :: bs)
      = (decode_utf8 bs).map (fun cs => Char.ofNat b :: cs) := by
  match bs with
  | [] => simp [decode_utf8, hb]
  | [b1] => simp [decode_utf8, hb]
  | [b1, b2] => simp [decode_utf8, hb]
  | b1 :: b2 :: b3 :: rest => simp [decode_utf8, hb]

theorem decode_utf8_two (b b1 : Nat) (bs : List Nat) (h2 : 0xC2 ≤ b) (h3 : b < 0xE0)
    (hc : isCont b1 = true) :
    decode_utf8 (b :: b1 :: bs)
      = (decode_utf8 bs).map
          (fun cs => Char.ofNat ((b - 0xC0) * 0x40 + (b1 - 0x80)) :: cs) := by
  have hn1 : ¬ b < 0x80 := by omega
  have hn2 : ¬ b < 0xC2 := by omega
  match bs with
  | [] => simp [decode_utf8, hn1, hn2, h3, hc]
  | [b2] => simp [decode_utf8, hn1, hn2, h3, hc]
  | b2 :: b3 :: rest2 => simp [decode_utf8, hn1, hn2, h3, hc]

theorem decode_utf8_three (b b1 b2 : Nat) (bs : List Nat) (h1 : 0xE0 ≤ b) (h2 : b < 0xF0)
    (hcond : (if b = 0xE0 then isCont b1 && decide (0xA0 ≤ b1)
              else if b = 0xED then isCont b1 && decide (b1 ≤ 0x9F)
              else isCont b1) = true)
    (hc2 : isCont b2 = true) :
    decode_utf8 (b :: b1 :: b2 :: bs)
      = (decode_utf8 bs).map
          (fun cs =>
            Char.ofNat ((b - 0xE0) * 0x1000 + (b1 - 0x80) * 0x40 + (b2 - 0x80)) :: cs) := by
  have hn1 : ¬ b < 0x80 := by omega
  have hn2 : ¬ b < 0xC2 := by omega
  have hn3 : ¬ b < 0xE0 := by omega
  match bs with
  | [] => simp [decode_utf8, hn1, hn2, hn3, h2, hcond, hc2]
  | b3 :: rest3 => simp [decode_utf8, hn1, hn2, hn3, h2, hcond, hc2]

theorem decode_utf8_four (b b1 b2 b3 : Nat) (bs : List Nat) (h1 : 0xF0 ≤ b) (h2 : b < 0xF5)
    (hcond : (if b = 0xF0 then isCont b1 && decide (0x90 ≤ b1)
              else if b = 0xF4 then isCont b1 && decide (b1 ≤ 0x8F)
              else isCont b1) = true)
    (hc2 : isCont b2 = true) (hc3 : isCont b3 = true) :
    decode_utf8 (b :: b1 :: b2 :: b3 :: bs)
      = (decode_utf8 bs).map
          (fun cs =>
            Char.ofNat ((b - 0xF0) * 0x40000 + (b1 - 0x80) * 0x1000
              + (b2 - 0x80) * 0x40 + (b3 - 0x80)) :: cs) := by
  have hn1 : ¬ b < 0x80 := by omega
  have hn2 : ¬ b < 0xC2 := by omega
  have hn3 : ¬ b < 0xE0 := by omega
  have hn4 : ¬ b < 0xF0 := by omega
  simp [decode_utf8, hn1, hn2, hn3, hn4, h2, hcond, hc2, hc3]

theorem isCont_true (b : Nat) (h1 : 0x80 ≤ b) (h2 : b ≤ 0xBF) : isCont b = true := by
  simp only [isCont, Bool.and_eq_true, decide_eq_true_eq]
  exact ⟨h1, h2⟩

theorem decode_utf8_encode_utf8 (c : Char) (bs : List Nat) :
    decode_utf8 (encode_utf8 c ++ bs) = (decode_utf8 bs).map (fun cs => c :: cs) := by
  have hsur := char_toNat_not_surrogate c
  have hlt := char_toNat_lt c
  by_cases h1 : c.toNat < 0x80
  · rw [encode_utf8_ascii c h1, List.cons_append, List.nil_append,
      decode_utf8_ascii c.toNat bs h1]
    simp only [Char.ofNat_toNat]
  · by_cases h2 : c.toNat < 0x800
    · have he : encode_utf8 c = [0xC0 + c.toNat / 0x40, 0x80 + c.toNat % 0x40] := by
        unfold encode_utf8
        rw [if_neg h1, if_pos h2]
      rw [he]
      simp only [List.cons_append, List.nil_append]
      rw [decode_utf8_two _ _ bs (by omega) (by omega)
        (isCont_true _ (by omega) (by omega))]
      have harg : (0xC0 + c.toNat / 0x40 - 0xC0) * 0x40 + (0x80 + c.toNat % 0x40 - 0x80)
          = c.toNat := by omega
      simp only [harg, Char.ofNat_toNat]
    · by_cases h3 : c.toNat < 0x10000
      · have he : encode_utf8 c = [0xE0 + c.toNat / 0x1000,
            0x80 + (c.toNat / 0x40) % 0x40, 0x80 + c.toNat % 0x40] := by
          unfold encode_utf8
          rw [if_neg h1, if_neg (by omega), if_pos h3]
        have hcond : (if 0xE0 + c.toNat / 0x1000 = 0xE0 then
              isCont (0x80 + (c.toNat / 0x40) % 0x40)
                && decide (0xA0 ≤ 0x80 + (c.toNat / 0x40) % 0x40)
            else if 0xE0 + c.toNat / 0x1000 = 0xED then
              isCont (0x80 + (c.toNat / 0x40) % 0x40)
                && decide (0x80 + (c.toNat / 0x40) % 0x40 ≤ 0x9F)
            else isCont (0x80 + (c.toNat / 0x40) % 0x40)) = true := by
          by_cases hq0 : c.toNat < 0x1000
          · rw [if_pos (by omega)]
            simp only [Bool.and_eq_true, decide_eq_true_eq]
            exact ⟨isCont_true _ (by omega) (by omega), by omega⟩
          · by_cases hq13 : c.toNat / 0x1000 = 13
            · rw [if_neg (by omega), if_pos (by omega)]
              simp only [Bool.and_eq_true, decide_eq_true_eq]
              exact ⟨isCont_true _ (by omega) (by omega), by omega⟩
            · rw [if_neg (by omega), if_neg (by omega)]
              exact isCont_true _ (by omega) (by omega)
        rw [he]
        simp only [List.cons_append, List.nil_append]
        rw [decode_utf8_three _ _ _ bs (by omega) (by omega) hcond
          (isCont_true _ (by omega) (by omega))]
        have harg : (0xE0 + c.toNat / 0x1000 - 0xE0) * 0x1000
            + (0x80 + (c.toNat / 0x40) % 0x40 - 0x80) * 0x40
            + (0x80 + c.toNat % 0x40 - 0x80) = c.toNat := by omega
        simp only [harg, Char.ofNat_toNat]
      · have he : encode_utf8 c = [0xF0 + c.toNat / 0x40000,
            0x80 + (c.toNat / 0x1000) % 0x40, 0x80 + (c.toNat / 0x40) % 0x40,
            0x80 + c.toNat % 0x40] := by
          unfold encode_utf8
          rw [if_neg h1, if_neg (by omega), if_neg (by omega)]
        have hcond : (if 0xF0 + c.toNat / 0x40000 = 0xF0 then
              isCont (0x80 + (c.toNat / 0x1000) % 0x40)
                && decide (0x90 ≤ 0x80 + (c.toNat / 0x1000) % 0x40)
            else if 0xF0 + c.toNat / 0x40000 = 0xF4 then
              isCont (0x80 + (c.toNat / 0x1000) % 0x40)
                && decide (0x80 + (c.toNat / 0x1000) % 0x40 ≤ 0x8F)
            else isCont (0x80 + (c.toNat / 0x1000) % 0x40)) = true := by
          by_cases hq0 : c.toNat < 0x40000
          · rw [if_pos (by omega)]
            simp only [Bool.and_eq_true, decide_eq_true_eq]
            exact ⟨isCont_true _ (by omega) (by omega), by omega⟩
          · by_cases hq4 : c.toNat / 0x40000 = 4
            · rw [if_neg (by omega), if_pos (by omega)]
              simp only [Bool.and_eq_true, decide_eq_true_eq]
              exact ⟨isCont_true _ (by omega) (by omega), by omega⟩
            · rw [if_neg (by omega), if_neg (by omega)]
              exact isCont_true _ (by omega) (by omega)
        rw [he]
        simp only [List.cons_append, List.nil_append]
        rw [decode_utf8_four _ _ _ _ bs (by omega) (by omega) hcond
          (isCont_true _ (by omega) (by omega)) (isCont_true _ (by omega) (by omega))]
        have harg : (0xF0 + c.toNat / 0x40000 - 0xF0) * 0x40000
            + (0x80 + (c.toNat / 0x1000) % 0x40 - 0x80) * 0x1000
            + (0x80 + (c.toNat / 0x40) % 0x40 - 0x80) * 0x40
            + (0x80 + c.toNat % 0x40 - 0x80) = c.toNat := by omega
        simp only [harg, Char.ofNat_toNat]

theorem decode_utf8_as_bytes (s : List Char) : decode_utf8 (as_bytes s) = some s := by
  induction s with
  | nil => rfl
  | cons c rest ih =>
    rw [as_bytes_cons, decode_utf8_encode_utf8, ih]
    rfl

theorem percent_encode_cons (b : Nat) (bs : List Nat) :
    percent_encode (b :: bs)
      = (if should_percent_encode b then percent_encode_byte b else [Char.ofNat b])
          ++ percent_encode bs := by
  simp [percent_encode]

theorem percent_encode_append (bs1 bs2 : List Nat) :
    percent_encode (bs1 ++ bs2) = percent_encode bs1 ++ percent_encode bs2 := by
  simp [percent_encode]

theorem should_percent_encode_false (b : Nat) (h : should_percent_encode b = false) :
    b < 0x80 := by
  simp only [should_percent_encode, Bool.or_eq_false_iff, decide_eq_false_iff_not,
    not_le] at h
  exact h.1

theorem as_bytes_percent_encode_byte (b : Nat) (h : b < 256) :
    as_bytes (percent_encode_byte b)
      = [37, (UPPER_HEX (b / 16)).toNat, (UPPER_HEX (b % 16)).toNat] := by
  have hq : b / 16 < 16 := by omega
  have hr : b % 16 < 16 := by omega
  have t37 : (Char.ofNat 0x25).toNat = 37 := toNat_ofNat_valid 37 (by omega)
  have e1 : encode_utf8 (Char.ofNat 0x25) = [37] := by
    rw [encode_utf8_ascii _ (by rw [t37]; omega), t37]
  have e2 : encode_utf8 (UPPER_HEX (b / 16)) = [(UPPER_HEX (b / 16)).toNat] :=
    encode_utf8_ascii _ (UPPER_HEX_toNat_lt _ hq)
  have e3 : encode_utf8 (UPPER_HEX (b % 16)) = [(UPPER_HEX (b % 16)).toNat] :=
    encode_utf8_ascii _ (UPPER_HEX_toNat_lt _ hr)
  simp [percent_encode_byte, as_bytes, e1, e2, e3]

theorem percent_decode_as_bytes_percent_encode (bs : List Nat)
    (hlt : ∀ b ∈ bs, b < 256) (h37 : 37 ∉ bs) :
    percent_decode (as_bytes (percent_encode bs)) = bs := by
  induction bs with
  | nil => rfl
  | cons b rest ih =>
    have hb : b < 256 := hlt b (List.mem_cons_self b rest)
    simp only [List.mem_cons, not_or] at h37
    rw [percent_encode_cons, as_bytes_append]
    by_cases hesc : should_percent_encode b = true
    · rw [if_pos hesc, as_bytes_percent_encode_byte b hb]
      rw [show ([37, (UPPER_HEX (b / 16)).toNat, (UPPER_HEX (b % 16)).toNat] : List Nat)
            ++ as_bytes (percent_encode rest)
          = 37 :: (UPPER_HEX (b / 16)).toNat :: (UPPER_HEX (b % 16)).toNat
            :: as_bytes (percent_encode rest) from rfl]
      rw [percent_decode_escape _ _ (b / 16) (b % 16) _
        (from_hex_UPPER_HEX _ (by omega)) (from_hex_UPPER_HEX _ (by omega))]
      rw [ih (fun x hx => hlt x (List.mem_cons_of_mem b hx)) h37.2]
      congr 1
      omega
    · rw [if_neg hesc]
      have hesc' : should_percent_encode b = false := by
        cases hsb : should_percent_encode b
        · rfl
        · exact absurd hsb hesc
      have hba : b < 0x80 := should_percent_encode_false b hesc'
      have tb : (Char.ofNat b).toNat = b := toNat_ofNat_valid b (by omega)
      have eb : as_bytes [Char.ofNat b] = [b] := by
        simp [as_bytes, encode_utf8_ascii _ (by rw [tb]; omega : (Char.ofNat b).toNat < 0x80), tb]
      rw [eb, List.singleton_append,
        percent_decode_cons_ne b _ (fun hEq => h37.1 hEq.symm),
        ih (fun x hx => hlt x (List.mem_cons_of_mem b hx)) h37.2]

theorem as_bytes_no_percent (s : List Char) (hp : Char.ofNat 37 ∉ s) :
    37 ∉ as_bytes s :=
  fun h => hp (mem_of_percent_mem_as_bytes s h)

theorem decode_str_utf8_percent_encode (s : List Char) (hp : Char.ofNat 37 ∉ s) :
    decode_str (utf8_percent_encode s) = some s := by
  unfold decode_str utf8_percent_encode
  rw [percent_decode_as_bytes_percent_encode (as_bytes s) (as_bytes_mem_lt_256 s)
    (as_bytes_no_percent s hp), decode_utf8_as_bytes]

theorem decode_str_no_percent (s : List Char) (hp : Char.ofNat 37 ∉ s) :
    decode_str s = some s := by
  unfold decode_str
  rw [percent_decode_no37 (as_bytes s) (as_bytes_no_percent s hp), decode_utf8_as_bytes]

theorem should_percent_encode_high (b : Nat) (h : 0x80 ≤ b) :
    should_percent_encode b = true := by
  simp only [should_percent_encode, ENCODE_FRAGMENT, CONTROLS, Bool.or_eq_true,
    decide_eq_true_eq]
  omega

theorem should_percent_encode_iff (b : Nat) :
    should_percent_encode b = true
      ↔ (0x80 ≤ b ∨ b ≤ 0x1F ∨ b = 0x7F ∨ b = 0x20 ∨ b = 0x22 ∨ b = 0x3C
          ∨ b = 0x3E ∨ b = 0x60) := by
  simp only [should_percent_encode, ENCODE_FRAGMENT, CONTROLS, Bool.or_eq_true,
    decide_eq_true_eq]
  tauto

theorem should_percent_encode_hexdigit (n : Nat)
    (h : (48 ≤ n ∧ n ≤ 57) ∨ (65 ≤ n ∧ n ≤ 70) ∨ n = 37) :
    should_percent_encode n = false := by
  cases hsb : should_percent_encode n
  · rfl
  · rw [should_percent_encode_iff] at hsb
    omega

theorem mem_percent_encode (bs : List Nat) (hlt : ∀ b ∈ bs, b < 256)
    (c : Char) (hc : c ∈ percent_encode bs) :
    c.toNat < 0x80 ∧ should_percent_encode c.toNat = false := by
  simp only [percent_encode, List.mem_flatten, List.mem_map] at hc
  obtain ⟨l, ⟨b, hb, rfl⟩, hcl⟩ := hc
  have hblt := hlt b hb
  by_cases hesc : should_percent_encode b = true
  · rw [if_pos hesc] at hcl
    simp only [percent_encode_byte, List.mem_cons, List.not_mem_nil, or_false] at hcl
    rcases hcl with rfl | rfl | rfl
    · rw [toNat_ofNat_valid 37 (by omega)]
      exact ⟨by omega, should_percent_encode_hexdigit 37 (by omega)⟩
    · rw [UPPER_HEX_toNat _ (by omega)]
      constructor
      · split <;> omega
      · apply should_percent_encode_hexdigit
        split <;> omega
    · rw [UPPER_HEX_toNat _ (by omega)]
      constructor
      · split <;> omega
      · apply should_percent_encode_hexdigit
        split <;> omega
  · rw [if_neg hesc] at hcl
    have hesc' : should_percent_encode b = false := by
      cases hsb : should_percent_encode b
      · rfl
      · exact absurd hsb hesc
    have hba : b < 0x80 := should_percent_encode_false b hesc'
    simp only [List.mem_singleton] at hcl
    subst hcl
    rw [toNat_ofNat_valid b (by omega)]
    exact ⟨hba, hesc'⟩

theorem utf8_percent_encode_fixpoint (t : List Char)
    (h : ∀ c ∈ t, c.toNat < 0x80 ∧ should_percent_encode c.toNat = false) :
    utf8_percent_encode t = t := by
  induction t with
  | nil => rfl
  | cons c rest ih =>
    obtain ⟨ha, hs⟩ := h c (List.mem_cons_self c rest)
    unfold utf8_percent_encode at ih ⊢
    rw [as_bytes_cons, encode_utf8_ascii c ha, List.singleton_append,
      percent_encode_cons, if_neg (by rw [hs]; exact Bool.false_ne_true),
      ih (fun x hx => h x (List.mem_cons_of_mem c hx))]
    simp only [Char.ofNat_toNat, List.singleton_append]

theorem percent_encode_all_escaped (bs : List Nat)
    (h : ∀ b ∈ bs, should_percent_encode b = true) :
    percent_encode bs = bs.flatMap percent_encode_byte := by
  induction bs with
  | nil => rfl
  | cons b rest ih =>
    rw [percent_encode_cons, if_pos (h b (List.mem_cons_self b rest)),
      ih (fun x hx => h x (List.mem_cons_of_mem b hx))]
    simp

theorem percent_encode_nil : percent_encode [] = [] := rfl

theorem percent_encode_encode_utf8_char (c : Char) :
    percent_encode (encode_utf8 c) = fragment_spec_encode_char c := by
  by_cases ha : c.toNat < 0x80
  · by_cases hf : ENCODE_FRAGMENT c.toNat = true
    · have hs : should_percent_encode c.toNat = true := by
        simp [should_percent_encode, hf]
      rw [encode_utf8_ascii c ha]
      unfold fragment_spec_encode_char
      rw [if_neg (by simp [hf]), encode_utf8_ascii c ha,
        percent_encode_cons, if_pos hs]
      simp [percent_encode_nil]
    · have hf' : ENCODE_FRAGMENT c.toNat = false := by
        cases hfb : ENCODE_FRAGMENT c.toNat
        · rfl
        · exact absurd hfb hf
      have hs : should_percent_encode c.toNat = false := by
        simp only [should_percent_encode, Bool.or_eq_false_iff,
          decide_eq_false_iff_not, not_le]
        exact ⟨ha, hf'⟩
      rw [encode_utf8_ascii c ha]
      unfold fragment_spec_encode_char
      rw [if_pos (by simp [hf', ha]), percent_encode_cons,
        if_neg (by rw [hs]; exact Bool.false_ne_true)]
      simp [percent_encode_nil, Char.ofNat_toNat]
  · have hall : ∀ b ∈ encode_utf8 c, should_percent_encode b = true := fun b hb =>
      should_percent_encode_high b (encode_utf8_mem_high c (by omega) b hb)
    unfold fragment_spec_encode_char
    rw [if_neg (by simp [ha]), percent_encode_all_escaped _ hall]

theorem handle_uri_str (s : List Char) (hne : s ≠ []) (cb : List Char → Option Value) :
    handle_uri [Value.str s] cb = cb s := by
  have hie : s.isEmpty = false := by
    cases s with
    | nil => exact absurd rfl hne
    | cons a t => rfl
  unfold handle_uri
  simp [hie]

/-! ## The claims -/

/-- Claim C1, counterexample: the code point `[` (0x5B) is outside the
spec's unescaped-character set, so the claim requires the encoder to
replace it by the percent-escape `%5B` of its UTF-8 byte; the encoder
passes it through unchanged. -/
theorem encode_bracket_passthrough :
    uriUnescaped '[' = false ∧ utf8_percent_encode ['['] = ['[']
      ∧ utf8_percent_encode ['['] ≠ ['%', '5', 'B'] := by decide

/-- Claim C1 (amended): for every input string, the encoder leaves each
ASCII code point outside the fragment escape set (C0 controls, space,
double quote, `<`, `>`, backtick, DEL) unchanged, and replaces every other
code point — fragment-set ASCII and all non-ASCII — by the percent-escaped
sequence of its UTF-8 bytes, each byte independently, in byte order. -/
theorem encode_matches_fragment_policy (s : List Char) :
    utf8_percent_encode s = fragment_spec_encode s := by
  induction s with
  | nil => rfl
  | cons c rest ih =>
    unfold utf8_percent_encode at ih ⊢
    rw [as_bytes_cons, percent_encode_append, ih, percent_encode_encode_utf8_char]
    simp [fragment_spec_encode]

/-- Claim C2, evaluation at failing inputs: a lone `%` and a `%` followed
by a non-hex digit are passed through literally instead of being rejected,
and an overlong UTF-8 escape sequence makes the `unwrap` panic (modelled
as `none`) instead of surfacing a recoverable error. -/
theorem decode_malformed_evaluation :
    decode_str ['%'] = some ['%']
      ∧ decode_str ['%', 'G', '1'] = some ['%', 'G', '1']
      ∧ decode_str ['%', 'C', '0', '%', '8', '0'] = none := by decide

/-- Claim C3, counterexample: the encoder does not escape `%`, so the
round trip fails on the input `%41`: it encodes to itself and then decodes
to `A`. -/
theorem roundtrip_percent_cex :
    utf8_percent_encode ['%', '4', '1'] = ['%', '4', '1']
      ∧ decode_str (utf8_percent_encode ['%', '4', '1']) = some ['A']
      ∧ decode_str (utf8_percent_encode ['%', '4', '1']) ≠ some ['%', '4', '1'] := by
  decide

/-- Claim C3 (amended): for every string of Unicode scalar values that
contains no `%` character, decoding the result of encoding it yields the
original string. -/
theorem decode_encode_roundtrip (s : List Char) (hp : '%' ∉ s) :
    decode_str (utf8_percent_encode s) = some s := by
  have h37 : Char.ofNat 37 = '%' := by decide
  exact decode_str_utf8_percent_encode s (by rw [h37]; exact hp)

/-- Witness for the amended claim C3 at the concrete input `a€`. -/
theorem decode_encode_roundtrip_witness :
    decode_str (utf8_percent_encode ['a', '€']) = some ['a', '€'] :=
  decode_encode_roundtrip ['a', '€'] (by decide)

/-- Claim C4, evaluation at the failing input: with no argument supplied,
the dispatcher panics on the `unwrap` of `None` (modelled as `none`) —
for every callback — instead of returning the undefined sentinel. -/
theorem handle_uri_absent_arg_panics :
    decode_uri [] = none
      ∧ (∀ cb : List Char → Option Value, handle_uri [] cb = none) :=
  ⟨rfl, fun _ => rfl⟩

/-- Claim C5, counterexample: the encoder output for the input `[`
contains the character `[`, which is neither alphanumeric, nor in the
spec's unescaped set, nor `%`. -/
theorem encode_alphabet_cex :
    '[' ∈ utf8_percent_encode ['['] ∧ ('[').isAlphanum = false
      ∧ uriUnescaped '[' = false ∧ '[' ≠ '%' := by decide

/-- Claim C5 (amended): every character of encoder output is an ASCII
character that the encoder itself never escapes (ASCII outside the
fragment escape set) — in particular `%` and uppercase hex digits, but
also characters such as `[` that the original claim excluded. -/
theorem encode_output_unescaped_ascii (s : List Char) (c : Char)
    (hc : c ∈ utf8_percent_encode s) :
    c.toNat < 0x80 ∧ should_percent_encode c.toNat = false :=
  mem_percent_encode (as_bytes s) (as_bytes_mem_lt_256 s) c hc

/-- Witness for the amended claim C5: `%` occurs in the encoding of `€`
and is an ASCII character the encoder never escapes. -/
theorem encode_output_unescaped_ascii_witness :
    ('%').toNat < 0x80 ∧ should_percent_encode ('%').toNat = false :=
  encode_output_unescaped_ascii ['€'] '%' (by decide)

/-- Claim C6, evaluation at the failing input: `encodeURI` invoked with
zero arguments panics on the `unwrap` of `None` (modelled as `none`), so
the operation is not total over all invocations. -/
theorem encode_uri_zero_args_panics : encode_uri [] = none := rfl

/-- Claim C7: encoding and decoding the empty string both yield the empty
string, via the dispatcher's explicit `is_empty` short-circuit: the result
is the empty string for every callback whatsoever, so the transform is
never invoked on empty input. -/
theorem empty_short_circuit :
    encode_uri [Value.str []] = some (Value.str [])
      ∧ decode_uri [Value.str []] = some (Value.str [])
      ∧ (∀ cb : List Char → Option Value,
          handle_uri [Value.str []] cb = some (Value.str [])) :=
  ⟨rfl, rfl, fun _ => rfl⟩

/-- Claim C8: escape-sequence hex digits decode case-insensitively:
`%e2%82%ac` and `%E2%82%AC` both decode to the one-character string `€`
(U+20AC), and in general a lowercase hex letter denotes the same value as
its uppercase form. -/
theorem decode_hex_case_insensitive :
    decode_uri [Value.str ['%', 'e', '2', '%', '8', '2', '%', 'a', 'c']]
        = some (Value.str ['€'])
      ∧ decode_uri [Value.str ['%', 'E', '2', '%', '8', '2', '%', 'A', 'C']]
        = some (Value.str ['€'])
      ∧ (∀ b, 65 ≤ b → b ≤ 70 → from_hex (b + 32) = from_hex b) := by
  refine ⟨by decide, by decide, ?_⟩
  intro b h1 h2
  unfold from_hex
  rw [if_neg (by omega), if_neg (by omega), if_pos (by omega),
    if_neg (by omega), if_pos (by omega)]
  congr 1

/-- Witness for claim C8's general part at `E`/`e` (byte 69 and 101). -/
theorem decode_hex_case_insensitive_witness :
    from_hex (69 + 32) = from_hex 69 :=
  decode_hex_case_insensitive.2.2 69 (by decide) (by decide)

/-- Claim C9: on every non-empty input containing no `%` character the
decode operation is the identity (also for non-ASCII input), both at the
transform level and through the dispatcher. -/
theorem decode_identity_no_percent (s : List Char) (hne : s ≠ []) (hp : '%' ∉ s) :
    decode_str s = some s
      ∧ decode_uri [Value.str s] = some (Value.str s) := by
  have h37 : Char.ofNat 37 = '%' := by decide
  have hd : decode_str s = some s := decode_str_no_percent s (by rw [h37]; exact hp)
  refine ⟨hd, ?_⟩
  unfold decode_uri
  rw [handle_uri_str s hne, hd]
  rfl

/-- Witness for claim C9 at the concrete input `a€`. -/
theorem decode_identity_no_percent_witness :
    decode_str ['a', '€'] = some ['a', '€']
      ∧ decode_uri [Value.str ['a', '€']] = some (Value.str ['a', '€']) :=
  decode_identity_no_percent ['a', '€'] (by decide) (by decide)

/-- Claim C10: the encoder is idempotent on every input: its output
consists only of characters it never escapes (`%`, which it does not
escape, hex digits and pass-through ASCII), so encoding it again changes
nothing. -/
theorem encode_idempotent (s : List Char) :
    utf8_percent_encode (utf8_percent_encode s) = utf8_percent_encode s :=
  utf8_percent_encode_fixpoint _
    (fun c hc => mem_percent_encode (as_bytes s) (as_bytes_mem_lt_256 s) c hc)

end Boa
